import Mathlib

/-!
# structfs: a struct projected onto a read-only path namespace

A shallow embedding of `structfs/structfs.go`: the reflection-driven path
resolver (`structItem`, `getNames`, `getStruct`, `getValue`), the virtual
file handle (`File.Read`, `File.Seek`, `File.Stat`) and the adapter
(`newFile`, `Fs.Open`, `Fs.ServeHTTP`), followed by the properties proved
about them.
-/

set_option autoImplicit false

namespace Structfs

/-! ## Strings and bytes -/

/-- One byte of a Go `string` or `[]byte`. -/
abbrev Byte := UInt8

/-- A Go `string` (equally a `[]byte`): a finite sequence of bytes. -/
abbrev Str := List Byte

/-- The bytes of an ASCII literal. -/
def ascii (s : String) : Str := s.toList.map (fun c => UInt8.ofNat c.toNat)

/-- The byte `/`. -/
def slash : Byte := 47

/-- The byte `\n`. -/
def newline : Byte := 10

/-- Go `strings.Index(s, substr)`: the index of the first occurrence of
`substr` in `s`, or `-1` when there is none. -/
def stringsIndex : Str → Str → Int
  | [], substr => if substr = [] then 0 else -1
  | c :: s, substr =>
    if substr.isPrefixOf (c :: s) then 0
    else
      let r := stringsIndex s substr
      if r < 0 then -1 else r + 1

/-- Go `strings.Join(elems, sep)`: the elements with `sep` between each two
of them. -/
def stringsJoin : List Str → Str → Str
  | [], _ => []
  | [a], _ => a
  | a :: b :: rest, sep => a ++ sep ++ stringsJoin (b :: rest) sep

/-- Go slice expression `s[lo:]`. -/
def sliceFrom (s : Str) (lo : Nat) : Str := s.drop lo

/-- Go slice expression `s[lo:hi]`. -/
def sliceRange (s : Str) (lo hi : Nat) : Str := (s.drop lo).take (hi - lo)

/-! ## Reflected values -/

/-- A struct tag, parsed: the `key:"value"` pairs in the order written. -/
abbrev StructTag := List (Str × Str)

/-- Go `StructTag.Get(key)`: the value of the first pair with that key, the
empty string when there is none. -/
def StructTag.Get (t : StructTag) (key : Str) : Str :=
  match t.find? (fun p => p.1 == key) with
  | some p => p.2
  | none => []

/-- A Go value as `reflect` sees it. The resolver only distinguishes the
kinds `Struct`, `Slice` and `Ptr`; a value of any other kind (numbers,
booleans, strings, ...) is `basic`, given by its text. A struct is the list
of its fields in declaration order, each with its tag, whether it is exported
(`true`) or unexported (`false`), and its value. -/
inductive Value where
  | basic (text : Str)
  | slice (elems : List Value)
  | struct (fields : List (StructTag × Bool × Value))
  | ptr (target : Option Value)

/-- A struct field `f`: its tag `f.1`, whether it is exported `f.2.1`, and its
value `f.2.2`. -/
abbrev Field := StructTag × Bool × Value

/-- The ways a call ends other than with a result: one of the three `error`
values the package creates, a run-time panic, or the recursion bound of the
model being reached. -/
inductive Fault where
  /-- The error `errors.New("failed to find names")`. -/
  | names
  /-- The error `errors.New("failed to find iface")`. -/
  | iface
  /-- The error `errors.New("cant find name in interface")`. -/
  | value
  /-- A run-time panic (`reflect` on a non-struct, slice out of range). -/
  | panic
  /-- The recursion bound of the model was reached. -/
  | fuel
  deriving DecidableEq, Repr

deriving instance DecidableEq for Except

/-- The call `s.Field(i).Interface()` on the field `f`: the value of an
exported field; `reflect` panics on a field that is unexported. -/
def fieldInterface (f : Field) : Except Fault Value :=
  if f.2.1 then .ok f.2.2 else .error .panic

/-- The function `reflectValue(obj)`: the value itself, or what a pointer points to (one
level only). `none` is the zero `reflect.Value` that `Elem()` gives for a nil
pointer. -/
def reflectValue : Value → Option Value
  | .ptr target => target
  | v => some v

/-- The fields of a reflected value: `s.Type()`, `s.NumField()` and
`s.Field(i)` panic unless `s` is a struct. -/
def structFields : Option Value → Except Fault (List Field)
  | some (.struct fields) => .ok fields
  | _ => .error .panic

/-- The body of the loop in `getNames`: a non-empty annotation is appended
to `lines`. -/
def appendName (tag : Str) (lines : List Str) (f : Field) : List Str :=
  let value := f.1.Get tag
  if value ≠ [] then lines ++ [value] else lines

/-- The function `getNames(iface, tag)`: the non-empty annotations of the fields, in
field order, joined by newlines; an error when there are none. -/
def getNames (iface : Value) (tag : Str) : Except Fault Str :=
  match structFields (reflectValue iface) with
  | .error e => .error e
  | .ok fields =>
    let lines := fields.foldl (appendName tag) []
    if lines.length > 0 then .ok (stringsJoin lines [newline]) else .error .names

/-- The function `getStruct(name, iface, tag)`: `s.Field(i).Interface()` of the
first field whose annotation equals `name`. -/
def getStruct (name : Str) (iface : Value) (tag : Str) : Except Fault Value :=
  match structFields (reflectValue iface) with
  | .error e => .error e
  | .ok fields =>
    match fields.find? (fun f => f.1.Get tag == name) with
    | some f => fieldInterface f
    | none => .error .iface

/-- The function `getValue(name, iface, tag)`: the loop body returns on its first
iteration, so the first field is rendered whatever `name` is. It takes
`s.Field(i).Interface()` before it looks at the kind. `sprint` is
`fmt.Sprintf("%v", ·)`. -/
def getValue (sprint : Value → Str) (_name : Str) (iface : Value) (_tag : Str) :
    Except Fault Str :=
  match structFields (reflectValue iface) with
  | .error e => .error e
  | .ok fields =>
    match fields with
    | [] => .error .value
    | f :: _ =>
      match fieldInterface f with
      | .error e => .error e
      | .ok ifs =>
        match f.2.2 with
        | .slice elems => .ok (stringsJoin (elems.map sprint) [newline])
        | _ => .ok (sprint ifs)

/-- The function `structItem(path, iface, tag)` with a bound on the depth of recursion. -/
def structItemFuel (sprint : Value → Str) : Nat → Str → Value → Str → Except Fault Str
  | 0, _, _, _ => .error .fuel
  | fuel + 1, path, iface, tag =>
    if path = [slash] then getNames iface tag
    else if path.length < 1 then .error .panic
    else
      let idx := stringsIndex (sliceFrom path 1) [slash]
      if idx > 0 then
        match getStruct (sliceRange path 1 (idx.toNat + 1)) iface tag with
        | .error e => .error e
        | .ok curiface => structItemFuel sprint fuel (sliceFrom path (idx.toNat + 1)) curiface tag
      else if idx = 0 then getNames iface tag
      else getValue sprint path iface tag

/-- The function `structItem(path, iface, tag)`: every recursive call is on a shorter
path, so the length of the path bounds the recursion. -/
def structItem (sprint : Value → Str) (path : Str) (iface : Value) (tag : Str) :
    Except Fault Str :=
  structItemFuel sprint (path.length + 1) path iface tag

/-- A formatter for examples: a basic value prints as its text. -/
def sprintText : Value → Str
  | .basic text => text
  | _ => []

/-! ## The virtual file handle -/

/-- The `error` a handle method returns when it is not `nil`: `io.EOF`. -/
inductive HandleError where
  | eof
  deriving DecidableEq, Repr

/-- The `File` struct: `name`, `offset` (an `int64`) and `data`. -/
structure File where
  name : Str
  offset : Int
  data : List Byte
  deriving DecidableEq

/-- What a `Read` leaves behind: the handle, the caller's buffer, and the two
results `n` and `err` (`none` is `nil`). -/
structure ReadResult where
  file : File
  buf : List Byte
  n : Nat
  err : Option HandleError
  deriving DecidableEq

/-- Go `copy(dst, src)`: the first `min(len(dst), len(src))` bytes of `src`
overwrite the start of `dst`; the count is returned with the new `dst`. -/
def goCopy (dst src : List Byte) : List Byte × Nat :=
  let n := min dst.length src.length
  (src.take n ++ dst.drop n, n)

/-- The call `bytes.NewReader(s).Read(b)`, the first read of a fresh reader
(position 0) as the standard library defines it: `io.EOF` when nothing is left
to read, whatever the length of `b`, else `copy(b, s[0:])`. -/
def bytesReaderRead (s b : List Byte) : List Byte × Nat × Option HandleError :=
  if (0 : Int) ≥ s.length then (b, 0, some .eof)
  else
    let r := goCopy b (s.drop 0)
    (r.1, r.2, none)

/-- The part of `Read` after the label `read`. The new offset is at most
`len(f.data)`, so the `int64` addition does not overflow. -/
def File.readTail (f : File) (buffer b : List Byte) : ReadResult :=
  let r := bytesReaderRead buffer b
  { file := { f with offset := f.offset + r.2.1 }, buf := r.1, n := r.2.1, err := r.2.2 }

/-- The method `File.Read(b)`. `none` is the run-time panic of the slice expression
`f.data[f.offset:]` at a negative offset. -/
def File.Read (f : File) (b : List Byte) : Option ReadResult :=
  if f.offset > f.data.length then
    some { file := f, buf := b, n := 0, err := some .eof }
  else if f.data.length > 0 then
    if f.offset < 0 then none
    else
      let rest := sliceFrom f.data f.offset.toNat
      let buffer := (goCopy (List.replicate rest.length 0) rest).1
      some (f.readTail buffer b)
  else
    let buffer : List Byte := []
    let data := (goCopy (List.replicate buffer.length 0) buffer).1
    some ({ f with data := data }.readTail buffer b)

/-- The value an `int64` holds after a computation whose exact result is
`x` (two's complement wrap-around). -/
def wrap64 (x : Int) : Int := (x + 2 ^ 63) % 2 ^ 64 - 2 ^ 63

/-- Go `a + b` on `int64`. -/
def add64 (a b : Int) : Int := wrap64 (a + b)

/-- The constant `os.SEEK_SET`. -/
def SEEK_SET : Int := 0

/-- The constant `os.SEEK_CUR`. -/
def SEEK_CUR : Int := 1

/-- The constant `os.SEEK_END`. -/
def SEEK_END : Int := 2

/-- The method `File.Seek(offset, whence)`: the handle afterwards and the two results;
the `switch` has no default case. -/
def File.Seek (f : File) (offset : Int) (whence : Int) : File × Int × Option HandleError :=
  let f1 : File :=
    if whence = SEEK_SET then { f with offset := offset }
    else if whence = SEEK_CUR then { f with offset := add64 f.offset offset }
    else if whence = SEEK_END then { f with offset := add64 f.data.length offset }
    else f
  (f1, f1.offset, none)

/-! ## The file system adapter and `Stat` -/

/-- Go `strings.HasPrefix(s, p)`: `len(s) >= len(p) && s[:len(p)] == p`. -/
def stringsHasPrefix (s p : Str) : Bool :=
  decide (s.length ≥ p.length) && (s.take p.length == p)

/-- Go `strings.HasSuffix(s, p)`: `len(s) >= len(p) && s[len(s)-len(p):] == p`. -/
def stringsHasSuffix (s p : Str) : Bool :=
  decide (s.length ≥ p.length) && (s.drop (s.length - p.length) == p)

/-- The `Fs` struct: the mounted record and the tag key. -/
structure Fs where
  iface : Value
  tag : Str

/-- The function `newFile(name, iface, tag)`: a handle `File{name: name}`, its
offset the zero value, with the resolver's bytes as data; the resolver's
error, and no handle, when it fails. -/
def newFile (sprint : Value → Str) (name : Str) (iface : Value) (tag : Str) :
    Except Fault File :=
  match structItem sprint name iface tag with
  | .error err => .error err
  | .ok data => .ok { name := name, offset := 0, data := data }

/-- The method `Fs.Open(path)`. -/
def Fs.Open (sprint : Value → Str) (fs : Fs) (path : Str) : Except Fault File :=
  newFile sprint path fs.iface fs.tag

/-- The method `Fs.ServeHTTP(w, r)` up to the call of `http.ServeContent`:
given `r.URL.Path`, the path as the method rewrites it and the outcome of the
`Open` whose handle is served. -/
def Fs.ServeHTTP (sprint : Value → Str) (fs : Fs) (urlPath : Str) : Str × Except Fault File :=
  let upath := if !stringsHasPrefix urlPath [slash] then [slash] ++ urlPath else urlPath
  (upath, fs.Open sprint upath)

/-- The `FileInfo` struct: `name` and `size` (an `int64`). -/
structure FileInfo where
  name : Str
  size : Int
  deriving DecidableEq

/-- The constant `os.ModeDir`, the bit `1 << 31` of an `os.FileMode`. -/
def ModeDir : Nat := 2 ^ 31

/-- The method `FileInfo.Size()`. -/
def FileInfo.Size (fi : FileInfo) : Int := fi.size

/-- The method `FileInfo.Name()`. -/
def FileInfo.Name (fi : FileInfo) : Str := fi.name

/-- The method `FileInfo.Mode()`. -/
def FileInfo.Mode (fi : FileInfo) : Nat :=
  if stringsHasSuffix fi.name [slash] then 0o755 ||| ModeDir else 0o644

/-- The method `FileInfo.IsDir()`. -/
def FileInfo.IsDir (_fi : FileInfo) : Bool := false

/-- The method `File.Stat()`: the file info and the error, which is `nil`. -/
def File.Stat (f : File) : FileInfo × Option HandleError :=
  ({ name := f.name, size := f.data.length }, none)

/-! ## Notions the properties are stated with -/

/-- Go slice expression `s[lo:hi]` with its bounds check: `none` is the
run-time panic raised unless `0 ≤ lo ≤ hi ≤ len(s)`. -/
def sliceChecked (s : Str) (lo hi : Int) : Option Str :=
  if 0 ≤ lo ∧ lo ≤ hi ∧ hi ≤ s.length then some ((s.drop lo.toNat).take (hi.toNat - lo.toNat))
  else none

/-- The record reached from `v` by descending through the segments in turn,
each looked up by `getStruct`. -/
def descend (tag : Str) : List Str → Value → Except Fault Value
  | [], v => .ok v
  | seg :: segs, v =>
    match getStruct seg v tag with
    | .error err => .error err
    | .ok w => descend tag segs w

/-- A reader that calls `Read` with the same buffer until a call reports
`io.EOF`, and collects the first `n` bytes of the buffer after each call.
`fuel` bounds the number of calls. -/
def readUntilEOF : Nat → File → List Byte → Except Fault (List Byte)
  | 0, _, _ => .error .fuel
  | fuel + 1, f, b =>
    match f.Read b with
    | none => .error .panic
    | some r =>
      if r.err = some .eof then .ok (r.buf.take r.n)
      else
        match readUntilEOF fuel r.file r.buf with
        | .error err => .error err
        | .ok more => .ok (r.buf.take r.n ++ more)

/-! ## Example records -/

/-- The tag key of the examples. -/
def jsonKey : Str := ascii "json"

/-- The struct tag that annotates a field with `name` under the key `json`. -/
def tagged (name : String) : StructTag := [(jsonKey, ascii name)]

/-- Two exported leaves: `A int` annotated `a` holding 1, `B int` annotated
`b` holding 2. -/
def twoLeaves : Value :=
  .struct [(tagged "a", true, .basic (ascii "1")), (tagged "b", true, .basic (ascii "2"))]

/-- An exported string field `Secret` without a tag, holding `secret`,
declared before an exported leaf annotated `a` holding 1. -/
def hiddenFirst : Value :=
  .struct [([], true, .basic (ascii "secret")), (tagged "a", true, .basic (ascii "1"))]

/-- A single exported leaf annotated `a` holding 1. -/
def oneLeaf : Value := .struct [(tagged "a", true, .basic (ascii "1"))]

/-- The fields of a struct with one leaf annotated `y` holding 2. -/
def innerFields : List Field := [(tagged "y", true, .basic (ascii "2"))]

/-- Two fields with the same annotation `x`: an `int` holding 1, then a struct
with the fields `innerFields`. -/
def sameTagTwice : List Field :=
  [(tagged "x", true, .basic (ascii "1")), (tagged "x", true, .struct innerFields)]

/-- A record shaped like the one of `structfs_test.go`, with the long strings
cut short and the interface lists left empty. -/
def droplet : Value :=
  .struct
    [ (tagged "droplet_id", true, .basic (ascii "2756294")),
      (tagged "hostname", true, .basic (ascii "sample-droplet")),
      (tagged "vendor_data", true, .basic (ascii "#cloud-config")),
      (tagged "public_keys", true, .slice [.basic (ascii "ssh-rsa AAAA")]),
      (tagged "region", true, .basic (ascii "nyc3")),
      (tagged "interfaces", true, .struct [(tagged "private", true, .slice []), (tagged "public", true, .slice [])]),
      (tagged "floating_ip", true,
        .struct [(tagged "ipv4", true, .struct [(tagged "active", true, .basic (ascii "false"))])]),
      (tagged "dns", true,
        .struct
          [(tagged "nameservers", true,
            .slice [.basic (ascii "2001:4860:4860::8844"), .basic (ascii "2001:4860:4860::8888"),
              .basic (ascii "8.8.8.8")])]) ]

/-- An unexported field `dns` annotated `dns`, a struct with the fields
`innerFields`: the fields of `struct{ dns struct{...} }`. -/
def unexportedOuter : List Field := [(tagged "dns", false, .struct innerFields)]

/-- An unexported field `name string` annotated `name`, holding `n`. -/
def unexportedLeaf : Value := .struct [(tagged "name", false, .basic (ascii "n"))]

/-- An unexported, untagged field `mu int` holding 0, declared before an
exported field `Name string` annotated `name`, holding `n`. -/
def unexportedFirst : Value :=
  .struct [([], false, .basic (ascii "0")), (tagged "name", true, .basic (ascii "n"))]

/-- The record `droplet` mounted under the tag key `json`. -/
def mount : Fs := { iface := droplet, tag := jsonKey }

/-! ## Example handles -/

/-- A handle on the one byte `A` whose offset equals the content length. -/
def atEnd : File := { name := ascii "/a", offset := 1, data := ascii "A" }

/-- A handle on `ABCD` with one byte already read. -/
def midway : File := { name := ascii "/a", offset := 1, data := ascii "ABCD" }

/-- A handle on `ABCD` as `newFile` makes it, with offset 0. -/
def fresh : File := { name := ascii "/a", offset := 0, data := ascii "ABCD" }

/-- The non-empty annotations of the fields under a tag key, in declaration
order: what a directory listing names. -/
def annotations (fields : List Field) (tag : Str) : List Str :=
  (fields.map (fun f => f.1.Get tag)).filter (fun v => v ≠ [])

/-! ## Lemmas on the string helpers -/

theorem foldl_appendName (tag : Str) (fields : List Field) (acc : List Str) :
    fields.foldl (appendName tag) acc = acc ++ annotations fields tag := by
  induction fields generalizing acc with
  | nil => simp [annotations]
  | cons f fs ih =>
    simp only [List.foldl_cons, ih]
    by_cases h : f.1.Get tag = []
    · simp [annotations, appendName, h]
    · simp [annotations, appendName, h]

theorem getNames_of_fields (iface : Value) (fields : List Field) (tag : Str)
    (h : reflectValue iface = some (.struct fields)) :
    getNames iface tag =
      if annotations fields tag = [] then .error .names
      else .ok (stringsJoin (annotations fields tag) [newline]) := by
  unfold getNames
  simp only [h, structFields, foldl_appendName, List.nil_append]
  cases hA : annotations fields tag with
  | nil => rfl
  | cons a as => simp

theorem stringsJoin_append_sep (l : List Str) (sep : Str) (h : l ≠ []) :
    stringsJoin l sep ++ sep = (l.map (fun a => a ++ sep)).flatten := by
  induction l with
  | nil => exact absurd rfl h
  | cons a t ih =>
    cases t with
    | nil => simp [stringsJoin]
    | cons b rest =>
      have := ih (by simp)
      simp only [stringsJoin, List.map_cons, List.flatten_cons, List.append_assoc] at this ⊢
      rw [this]

theorem annotations_eq_nil_iff (fields : List Field) (tag : Str) :
    annotations fields tag = [] ↔ ∀ f ∈ fields, f.1.Get tag = [] := by
  simp only [annotations, List.filter_eq_nil_iff, List.mem_map, decide_eq_true_eq, not_not]
  constructor
  · intro h f hf
    exact h _ ⟨f, hf, rfl⟩
  · rintro h _ ⟨f, hf, rfl⟩
    exact h f hf

theorem structItem_root (sprint : Value → Str) (iface : Value) (tag : Str) :
    structItem sprint [slash] iface tag = getNames iface tag := by
  simp [structItem, structItemFuel]

theorem stringsIndex_cons_slash (c : Byte) (s : Str) :
    stringsIndex (c :: s) [slash] =
      if c = slash then 0
      else if stringsIndex s [slash] < 0 then -1 else stringsIndex s [slash] + 1 := by
  by_cases h : c = slash
  · subst h
    simp [stringsIndex, List.isPrefixOf]
  · have h2 : ¬ slash = c := fun e => h e.symm
    simp [stringsIndex, List.isPrefixOf, h, h2]

theorem stringsIndex_slash_after (seg rest : Str) (h : slash ∉ seg) :
    stringsIndex (seg ++ slash :: rest) [slash] = seg.length := by
  induction seg with
  | nil => simp [stringsIndex_cons_slash]
  | cons c seg ih =>
    have hc : c ≠ slash := fun e => h (e ▸ List.mem_cons_self _ _)
    have hs : slash ∉ seg := fun e => h (List.mem_cons_of_mem _ e)
    have hnot : ¬ ((seg.length : Int) < 0) := by omega
    rw [List.cons_append, stringsIndex_cons_slash, ih hs]
    simp only [hc, if_false, hnot, List.length_cons]
    push_cast
    rfl

theorem getStruct_of_find (name : Str) (iface : Value) (tag : Str) (fields : List Field)
    (f : Field) (hr : reflectValue iface = some (.struct fields))
    (hf : fields.find? (fun f => f.1.Get tag == name) = some f) :
    getStruct name iface tag = fieldInterface f := by
  simp [getStruct, hr, structFields, hf]

theorem fieldInterface_exported (t : StructTag) (v : Value) :
    fieldInterface (t, true, v) = .ok v := rfl

theorem fieldInterface_unexported (t : StructTag) (v : Value) :
    fieldInterface (t, false, v) = .error .panic := rfl

theorem fieldInterface_ok (f : Field) (v : Value) (h : fieldInterface f = .ok v) :
    f.2.1 = true ∧ f.2.2 = v := by
  unfold fieldInterface at h
  by_cases he : f.2.1 = true
  · simp only [he, if_true, Except.ok.injEq] at h
    exact ⟨he, h⟩
  · simp [he] at h

theorem fieldInterface_error (f : Field) (e : Fault) (h : fieldInterface f = .error e) :
    f.2.1 = false ∧ e = .panic := by
  unfold fieldInterface at h
  by_cases he : f.2.1 = true
  · simp [he] at h
  · simp only [he, Bool.false_eq_true, if_false, Except.error.injEq] at h
    exact ⟨by simpa using he, h.symm⟩

theorem structItemFuel_root (sprint : Value → Str) (n : Nat) (iface : Value) (tag : Str) :
    structItemFuel sprint (n + 1) [slash] iface tag = getNames iface tag := by
  simp [structItemFuel]

theorem structItemFuel_descend (sprint : Value → Str) (n : Nat) (seg rest : Str)
    (iface : Value) (tag : Str) (hne : seg ≠ []) (hns : slash ∉ seg) :
    structItemFuel sprint (n + 1) (slash :: seg ++ slash :: rest) iface tag =
      match getStruct seg iface tag with
      | .error e => .error e
      | .ok curiface => structItemFuel sprint n (slash :: rest) curiface tag := by
  have hpath : ¬ (slash :: seg ++ slash :: rest = [slash]) := by
    cases seg with
    | nil => exact absurd rfl hne
    | cons c t => simp
  have hlen : ¬ ((slash :: seg ++ slash :: rest).length < 1) := by simp
  have hidx : stringsIndex (sliceFrom (slash :: seg ++ slash :: rest) 1) [slash] = seg.length := by
    simpa [sliceFrom] using stringsIndex_slash_after seg rest hns
  have hpos : ((seg.length : Nat) : Int) > 0 := by
    have : 0 < seg.length := List.length_pos.mpr hne
    omega
  have hseg : sliceRange (slash :: seg ++ slash :: rest) 1 (seg.length + 1) = seg := by
    simp [sliceRange]
  have hrest : sliceFrom (slash :: seg ++ slash :: rest) (seg.length + 1) = slash :: rest := by
    simp [sliceFrom]
  rw [structItemFuel]
  simp only [hpath, if_false, hlen, hidx, hpos, if_true, Int.toNat_ofNat, hseg, hrest]

theorem getStruct_of_no_match (name : Str) (iface : Value) (tag : Str) (fields : List Field)
    (hr : reflectValue iface = some (.struct fields))
    (hno : ∀ f ∈ fields, f.1.Get tag ≠ name) :
    getStruct name iface tag = .error .iface := by
  have hfind : fields.find? (fun f => f.1.Get tag == name) = none := by
    rw [List.find?_eq_none]
    intro f hf
    simpa using hno f hf
  simp [getStruct, hr, structFields, hfind]

/-- A segment that is followed by a further `/` and matches no field of the
record it is looked up in fails with the error of `getStruct`. -/
theorem structItem_unmatched_descent (sprint : Value → Str) (seg rest : Str)
    (iface : Value) (tag : Str) (fields : List Field)
    (hne : seg ≠ []) (hns : slash ∉ seg)
    (hr : reflectValue iface = some (.struct fields))
    (hno : ∀ f ∈ fields, f.1.Get tag ≠ seg) :
    structItem sprint (slash :: seg ++ slash :: rest) iface tag = .error .iface := by
  unfold structItem
  rw [structItemFuel_descend sprint _ seg rest iface tag hne hns,
    getStruct_of_no_match seg iface tag fields hr hno]

/-- A directory listing names no field whose annotation is empty: every
annotation listed is non-empty and is the annotation of a field. -/
theorem annotations_tagged (fields : List Field) (tag : Str) (a : Str)
    (ha : a ∈ annotations fields tag) : a ≠ [] ∧ ∃ f ∈ fields, f.1.Get tag = a := by
  simp only [annotations, List.mem_filter, List.mem_map, decide_eq_true_eq] at ha
  exact ⟨ha.2, ha.1⟩

/-- The field `getStruct` descends into carries the name asked for as its
annotation, so a non-empty name never selects an untagged field. -/
theorem getStruct_selects_tagged (name : Str) (iface : Value) (tag : Str) (v : Value)
    (h : getStruct name iface tag = .ok v) :
    ∃ fields f, reflectValue iface = some (.struct fields) ∧ f ∈ fields ∧
      f.1.Get tag = name ∧ f.2.2 = v := by
  unfold getStruct at h
  cases hr : reflectValue iface with
  | none => simp [hr, structFields] at h
  | some s =>
    cases s with
    | struct fields =>
      simp only [hr, structFields] at h
      cases hf : fields.find? (fun f => f.1.Get tag == name) with
      | none => simp [hf] at h
      | some f =>
        simp only [hf] at h
        have hp := List.find?_some hf
        exact ⟨fields, f, rfl, List.mem_of_find?_eq_some hf, by simpa using hp,
          (fieldInterface_ok f v h).2⟩
    | basic t => simp [hr, structFields] at h
    | slice es => simp [hr, structFields] at h
    | ptr t => simp [hr, structFields] at h

/-! ## Lemmas on the handle -/

theorem goCopy_zeros (src : List Byte) :
    (goCopy (List.replicate src.length 0) src).1 = src := by
  simp [goCopy]

theorem wrap64_of_range (x : Int) (h0 : -2 ^ 63 ≤ x) (h1 : x < 2 ^ 63) : wrap64 x = x := by
  unfold wrap64
  rw [Int.emod_eq_of_lt (by omega) (by omega)]
  omega

theorem Read_at_or_past_end (f : File) (b : List Byte) (h : (f.data.length : Int) ≤ f.offset) :
    f.Read b = some { file := f, buf := b, n := 0, err := some .eof } := by
  unfold File.Read
  by_cases hgt : f.offset > f.data.length
  · simp [hgt]
  · have heq : f.offset = f.data.length := by omega
    simp only [hgt, if_false]
    by_cases hlen : f.data.length > 0
    · have hneg : ¬ f.offset < 0 := by omega
      simp only [hlen, if_true, hneg, if_false, goCopy_zeros]
      have hdrop : sliceFrom f.data f.offset.toNat = [] := by
        simp [sliceFrom, heq]
      simp [File.readTail, bytesReaderRead, hdrop]
    · have hnil : f.data = [] := by
        cases hd : f.data with
        | nil => rfl
        | cons x xs => simp [hd] at hlen
      cases f with
      | mk name offset data =>
        simp only at hnil
        subst hnil
        simp [File.readTail, bytesReaderRead, goCopy]

theorem Read_inside (f : File) (b : List Byte)
    (h0 : 0 ≤ f.offset) (h1 : f.offset < f.data.length) :
    f.Read b = some
      { file := { f with offset := f.offset + (min b.length (f.data.length - f.offset.toNat) : Nat) }
        buf := (f.data.drop f.offset.toNat).take (min b.length (f.data.length - f.offset.toNat))
                ++ b.drop (min b.length (f.data.length - f.offset.toNat))
        n := min b.length (f.data.length - f.offset.toNat)
        err := none } := by
  unfold File.Read
  have hgt : ¬ f.offset > f.data.length := by omega
  have hlen : f.data.length > 0 := by omega
  have hneg : ¬ f.offset < 0 := by omega
  simp only [hgt, if_false, hlen, if_true, hneg, goCopy_zeros]
  have hdl : (sliceFrom f.data f.offset.toNat).length = f.data.length - f.offset.toNat := by
    simp [sliceFrom]
  have hpos : ¬ ((0 : Int) ≥ ((f.data.length - f.offset.toNat : Nat) : Int)) := by omega
  simp only [File.readTail, bytesReaderRead, goCopy, List.drop_zero, hdl, hpos, if_false]
  rfl

/-! ## The resolver -/

/-- The four requests of `structfs_test.go` give the contents the test
expects. -/
theorem droplet_requests :
    structItem sprintText (ascii "/") droplet jsonKey = .ok (ascii
      "droplet_id\nhostname\nvendor_data\npublic_keys\nregion\ninterfaces\nfloating_ip\ndns") ∧
    structItem sprintText (ascii "/droplet_id") droplet jsonKey = .ok (ascii "2756294") ∧
    structItem sprintText (ascii "/dns/") droplet jsonKey = .ok (ascii "nameservers") ∧
    structItem sprintText (ascii "/dns/nameservers") droplet jsonKey =
      .ok (ascii "2001:4860:4860::8844\n2001:4860:4860::8888\n8.8.8.8") := by
  decide

/-- C1: for a struct, or a pointer to one, the path `/` resolves to the
non-empty annotations of the fields under the tag key, in declaration order
(nothing sorted, nothing dropped but the empty ones), joined by `\n`; it fails,
with the error of `getNames`, exactly when every field's annotation is empty.
Joined with no trailing newline: one more `\n` at the end gives the
annotations each followed by `\n`. -/
theorem root_lists_annotations (sprint : Value → Str) (fields : List Field) (tag : Str) :
    structItem sprint [slash] (.struct fields) tag =
      (if annotations fields tag = [] then .error .names
       else .ok (stringsJoin (annotations fields tag) [newline])) ∧
    structItem sprint [slash] (.ptr (some (.struct fields))) tag =
      structItem sprint [slash] (.struct fields) tag ∧
    (annotations fields tag = [] ↔ ∀ f ∈ fields, f.1.Get tag = []) ∧
    (annotations fields tag ≠ [] →
      stringsJoin (annotations fields tag) [newline] ++ [newline] =
        ((annotations fields tag).map (fun a => a ++ [newline])).flatten) := by
  refine ⟨?_, ?_, annotations_eq_nil_iff fields tag, stringsJoin_append_sep _ _⟩
  · rw [structItem_root, getNames_of_fields (.struct fields) fields tag rfl]
  · rw [structItem_root, structItem_root,
      getNames_of_fields (.ptr (some (.struct fields))) fields tag rfl,
      getNames_of_fields (.struct fields) fields tag rfl]

/-- C2, the failing input: in `twoLeaves` the second field is annotated `b`
and renders as `2`, yet the path `/b` resolves to `1`, the rendering of the
first field. -/
theorem leaf_path_renders_first_field_example :
    (tagged "b").Get jsonKey = ascii "b" ∧
    sprintText (.basic (ascii "2")) = ascii "2" ∧
    structItem sprintText (ascii "/b") twoLeaves jsonKey = .ok (ascii "1") := by
  decide

/-- C3, the failing input: the first field of `hiddenFirst` has no annotation
under the key, yet the path `/a` resolves to its value `secret`. -/
theorem leaf_path_exposes_untagged_example :
    StructTag.Get [] jsonKey = [] ∧
    structItem sprintText (ascii "/a") hiddenFirst jsonKey = .ok (ascii "secret") := by
  decide

/-- C4, the failing input: no field of `oneLeaf` is annotated `zzz`, yet the
path `/zzz` resolves to content, the `1` of the first field, and not to an
error. -/
theorem unmatched_leaf_gives_content_example :
    (tagged "a").Get jsonKey ≠ ascii "zzz" ∧
    structItem sprintText (ascii "/zzz") oneLeaf jsonKey = .ok (ascii "1") := by
  decide

/-- C5, counterexample: on two records that have a field annotated with the
name, a struct with a tagged field, the path does not give that struct's
listing. In `sameTagTwice` an earlier field carries the same annotation `x`:
`/x/` descends into that earlier field, an `int`, and panics, where `/`
against the struct lists `y`. In `unexportedOuter` the field annotated `dns`
is unexported: `getStruct` panics in `Interface()`. -/
theorem nested_listing_counterexamples :
    (tagged "x", true, Value.struct innerFields) ∈ sameTagTwice ∧
    (tagged "x").Get jsonKey = ascii "x" ∧
    annotations innerFields jsonKey ≠ [] ∧
    structItem sprintText (ascii "/x/") (.struct sameTagTwice) jsonKey = .error .panic ∧
    structItem sprintText (ascii "/") (.struct innerFields) jsonKey = .ok (ascii "y") ∧
    (tagged "dns", false, Value.struct innerFields) ∈ unexportedOuter ∧
    (tagged "dns").Get jsonKey = ascii "dns" ∧
    structItem sprintText (ascii "/dns/") (.struct unexportedOuter) jsonKey = .error .panic :=
  ⟨List.mem_cons_of_mem _ (List.mem_cons_self _ _), by decide, by decide, by decide, by decide,
    List.mem_cons_self _ _, by decide, by decide⟩

/-- C5, amended: when the first field annotated `outer` (non-empty, without
`/`) of a record, a struct or a pointer to one, is an exported field and a
struct with at least one tagged field, the path `/outer/` resolves to the
listing of that struct's own tagged fields: the same bytes as `/` against the
struct. -/
theorem nested_listing_of_first_match (sprint : Value → Str) (r : Value)
    (fields inner : List Field) (t : StructTag) (outer tag : Str)
    (hr : reflectValue r = some (.struct fields))
    (hne : outer ≠ []) (hns : slash ∉ outer)
    (hfirst : fields.find? (fun f => f.1.Get tag == outer) = some (t, true, .struct inner))
    (htag : annotations inner tag ≠ []) :
    structItem sprint (slash :: outer ++ [slash]) r tag =
      structItem sprint [slash] (.struct inner) tag ∧
    structItem sprint (slash :: outer ++ [slash]) r tag =
      .ok (stringsJoin (annotations inner tag) [newline]) := by
  have hdesc : structItem sprint (slash :: outer ++ [slash]) r tag =
      getNames (.struct inner) tag := by
    unfold structItem
    rw [structItemFuel_descend sprint _ outer [] r tag hne hns,
      getStruct_of_find outer r tag fields _ hr hfirst, fieldInterface_exported]
    simp only [List.length_cons, List.length_append, List.length_nil]
    exact structItemFuel_root sprint _ _ tag
  refine ⟨?_, ?_⟩
  · rw [hdesc, structItem_root]
  · rw [hdesc, getNames_of_fields (.struct inner) inner tag rfl, if_neg htag]

/-- C5, witness: `/dns/` on `droplet` lists `nameservers`. -/
theorem nested_listing_of_first_match_witness :
    structItem sprintText (slash :: ascii "dns" ++ [slash]) droplet jsonKey =
      structItem sprintText [slash]
        (.struct [(tagged "nameservers", true,
            .slice [.basic (ascii "2001:4860:4860::8844"), .basic (ascii "2001:4860:4860::8888"),
              .basic (ascii "8.8.8.8")])]) jsonKey ∧
    structItem sprintText (slash :: ascii "dns" ++ [slash]) droplet jsonKey =
      .ok (stringsJoin (annotations [(tagged "nameservers", true,
            .slice [.basic (ascii "2001:4860:4860::8844"), .basic (ascii "2001:4860:4860::8888"),
              .basic (ascii "8.8.8.8")])] jsonKey) [newline]) :=
  nested_listing_of_first_match sprintText droplet _ _ (tagged "dns") (ascii "dns") jsonKey
    rfl (by decide) (by decide) rfl (by decide)

/-! ## The handle: reading and seeking -/

/-- C6, counterexample: a handle on the one byte `A` with offset 1, equal to
the content length, read into a one-byte buffer: `Read` returns 0 bytes
together with `io.EOF` on that very call. -/
theorem Read_at_length_reports_eof_example :
    atEnd.offset = atEnd.data.length ∧
      atEnd.Read [0] = some { file := atEnd, buf := [0], n := 0, err := some .eof } := by
  decide

/-- C6, amended: whenever the offset has reached the content length (is equal
to it or beyond it), `Read` returns 0 bytes together with `io.EOF` on that
call and leaves the handle and the buffer as they were. -/
theorem Read_eof_at_or_past_length (f : File) (b : List Byte)
    (h : (f.data.length : Int) ≤ f.offset) :
    f.Read b = some { file := f, buf := b, n := 0, err := some .eof } :=
  Read_at_or_past_end f b h

theorem Read_eof_at_or_past_length_witness :
    (atEnd.data.length : Int) ≤ atEnd.offset ∧
      atEnd.Read [7, 7] = some { file := atEnd, buf := [7, 7], n := 0, err := some .eof } :=
  ⟨by decide, Read_eof_at_or_past_length atEnd [7, 7] (by decide)⟩

/-- C7: with `0 ≤ offset < len(content)` and a buffer of length `k`, `Read`
returns `n = min(k, len(content) - offset)` and a nil error, the buffer then
holds `content[offset : offset+n]` in its first `n` places (the rest of it is
as before), and the offset has advanced by `n`. -/
theorem Read_copies_from_offset (f : File) (b : List Byte)
    (h0 : 0 ≤ f.offset) (h1 : f.offset < f.data.length) :
    ∃ n : Nat, (n : Int) = min (b.length : Int) (f.data.length - f.offset) ∧
      f.Read b = some
        { file := { f with offset := f.offset + n }
          buf := sliceRange f.data f.offset.toNat (f.offset.toNat + n) ++ b.drop n
          n := n
          err := none } := by
  refine ⟨min b.length (f.data.length - f.offset.toNat), ?_, ?_⟩
  · omega
  · rw [Read_inside f b h0 h1]
    simp [sliceRange]

theorem Read_copies_from_offset_witness :
    0 ≤ midway.offset ∧ midway.offset < midway.data.length ∧
      ∃ n : Nat, (n : Int) = min (([0, 0] : List Byte).length : Int)
          (midway.data.length - midway.offset) ∧
        midway.Read [0, 0] = some
          { file := { midway with offset := midway.offset + n }
            buf := sliceRange midway.data midway.offset.toNat (midway.offset.toNat + n)
                    ++ ([0, 0] : List Byte).drop n
            n := n
            err := none } :=
  ⟨by decide, by decide, Read_copies_from_offset midway [0, 0] (by decide) (by decide)⟩

/-- C8: `Seek` never fails and returns the offset it stored, and it leaves the
name and the content alone. The stored offset is `d` for `SEEK_SET`,
`offset + d` for `SEEK_CUR` and `len(content) + d` for `SEEK_END`, the sums
being `int64` sums: exact whenever they fit in an `int64`. Nothing is clamped
to the content: a negative or a beyond-length result is stored as it is. -/
theorem Seek_stores_unclamped (f : File) (d : Int) :
    f.Seek d SEEK_SET = ({ f with offset := d }, d, none) ∧
    f.Seek d SEEK_CUR = ({ f with offset := add64 f.offset d }, add64 f.offset d, none) ∧
    f.Seek d SEEK_END =
      ({ f with offset := add64 f.data.length d }, add64 f.data.length d, none) ∧
    (∀ whence : Int, (f.Seek d whence).2.2 = none ∧
      (f.Seek d whence).2.1 = (f.Seek d whence).1.offset ∧
      (f.Seek d whence).1.data = f.data ∧ (f.Seek d whence).1.name = f.name) ∧
    (∀ a b : Int, -2 ^ 63 ≤ a + b → a + b < 2 ^ 63 → add64 a b = a + b) := by
  refine ⟨rfl, rfl, rfl, ?_, ?_⟩
  · intro whence
    unfold File.Seek
    refine ⟨rfl, rfl, ?_, ?_⟩ <;> (simp only; split_ifs <;> rfl)
  · intro a b h0 h1
    exact wrap64_of_range (a + b) h0 h1

/-- C9: whatever the offset was, after `Seek(0, SEEK_SET)` a `Read` into a
buffer as long as the content returns the whole content: the count is
`len(content)` and the buffer equals the content. (The error is nil unless the
content is empty.) -/
theorem Seek_start_then_Read_returns_content (f : File) (b : List Byte)
    (hb : b.length = f.data.length) :
    (f.Seek 0 SEEK_SET).1.Read b = some
      { file := { f with offset := f.data.length }
        buf := f.data
        n := f.data.length
        err := if f.data = [] then some .eof else none } := by
  have hseek : (f.Seek 0 SEEK_SET).1 = { f with offset := 0 } := rfl
  rw [hseek]
  cases hd : f.data with
  | nil =>
    have hbn : b = [] := List.eq_nil_of_length_eq_zero (by rw [hb, hd]; rfl)
    rw [Read_at_or_past_end _ b (by simp [hd])]
    simp [hbn, hd]
  | cons x xs =>
    rw [Read_inside _ b (by simp) (by simp [hd])]
    simp [hd, hb]

theorem Seek_start_then_Read_returns_content_witness :
    ([0, 0, 0, 0] : List Byte).length = midway.data.length ∧
      (midway.Seek 0 SEEK_SET).1.Read [0, 0, 0, 0] = some
        { file := { midway with offset := midway.data.length }
          buf := midway.data
          n := midway.data.length
          err := if midway.data = [] then some .eof else none } :=
  ⟨by decide, Seek_start_then_Read_returns_content midway [0, 0, 0, 0] (by decide)⟩

/-- C10: after `Seek(0, SEEK_END)` a `Read` yields zero bytes, and a `Read`
that follows it reports `io.EOF`, for every buffer of either call. (The
content length fits in an `int`, as every slice length does; the first of the
two reads reports `io.EOF` already.) -/
theorem Seek_end_then_Read_twice (f : File) (b b2 : List Byte)
    (hlen : (f.data.length : Int) < 2 ^ 63) :
    ∃ r1 r2 : ReadResult,
      (f.Seek 0 SEEK_END).1.Read b = some r1 ∧ r1.n = 0 ∧ r1.buf = b ∧
      r1.file.Read b2 = some r2 ∧ r2.n = 0 ∧ r2.err = some .eof ∧
      r1.err = some .eof := by
  have hseek : (f.Seek 0 SEEK_END).1 = { f with offset := f.data.length } := by
    have hw : add64 (f.data.length : Int) 0 = f.data.length := by
      unfold add64
      rw [Int.add_zero]
      exact wrap64_of_range _ (by omega) hlen
    show ({ f with offset := add64 f.data.length 0 } : File) = _
    rw [hw]
  rw [hseek]
  refine ⟨_, _, Read_at_or_past_end _ b (by simp), rfl, rfl,
    Read_at_or_past_end _ b2 (by simp), rfl, rfl, rfl⟩

theorem Seek_end_then_Read_twice_witness :
    (midway.data.length : Int) < 2 ^ 63 ∧
      ∃ r1 r2 : ReadResult,
        (midway.Seek 0 SEEK_END).1.Read [0, 0] = some r1 ∧ r1.n = 0 ∧ r1.buf = [0, 0] ∧
        r1.file.Read [0] = some r2 ∧ r2.n = 0 ∧ r2.err = some .eof ∧
        r1.err = some .eof :=
  ⟨by decide, Seek_end_then_Read_twice midway [0, 0] [0] (by decide)⟩

/-! ## More lemmas on the resolver -/

theorem stringsIndex_no_slash (s : Str) (h : slash ∉ s) : stringsIndex s [slash] = -1 := by
  induction s with
  | nil => simp [stringsIndex]
  | cons c s ih =>
    have hc : c ≠ slash := fun e => h (e ▸ List.mem_cons_self _ _)
    have hs : slash ∉ s := fun e => h (List.mem_cons_of_mem _ e)
    rw [stringsIndex_cons_slash, ih hs]
    simp [hc]

theorem split_at_first_slash (s : Str) (h : slash ∈ s) :
    ∃ seg rest, s = seg ++ slash :: rest ∧ slash ∉ seg := by
  induction s with
  | nil => simp at h
  | cons c s ih =>
    by_cases hc : c = slash
    · exact ⟨[], s, by simp [hc], by simp⟩
    · have hs : slash ∈ s := by
        rcases List.mem_cons.mp h with h1 | h1
        · exact absurd h1.symm hc
        · exact h1
      obtain ⟨seg, rest, hsplit, hno⟩ := ih hs
      refine ⟨c :: seg, rest, by simp [hsplit], ?_⟩
      intro hmem
      rcases List.mem_cons.mp hmem with h1 | h1
      · exact hc h1.symm
      · exact hno h1

theorem structItemFuel_nil (sprint : Value → Str) (n : Nat) (iface : Value) (tag : Str) :
    structItemFuel sprint (n + 1) [] iface tag = .error .panic := by
  simp [structItemFuel]

theorem structItemFuel_empty_segment (sprint : Value → Str) (n : Nat) (c : Byte) (rest : Str)
    (iface : Value) (tag : Str) :
    structItemFuel sprint (n + 1) (c :: slash :: rest) iface tag = getNames iface tag := by
  have hidx : stringsIndex (sliceFrom (c :: slash :: rest) 1) [slash] = 0 := by
    simp [sliceFrom, stringsIndex_cons_slash]
  rw [structItemFuel]
  simp [hidx]

theorem structItemFuel_step (sprint : Value → Str) (n : Nat) (c : Byte) (seg rest : Str)
    (iface : Value) (tag : Str) (hne : seg ≠ []) (hns : slash ∉ seg) :
    structItemFuel sprint (n + 1) (c :: seg ++ slash :: rest) iface tag =
      match getStruct seg iface tag with
      | .error e => .error e
      | .ok curiface => structItemFuel sprint n (slash :: rest) curiface tag := by
  have hpath : ¬ (c :: seg ++ slash :: rest = [slash]) := by
    cases seg with
    | nil => exact absurd rfl hne
    | cons x t => simp
  have hlen : ¬ ((c :: seg ++ slash :: rest).length < 1) := by simp
  have hidx : stringsIndex (sliceFrom (c :: seg ++ slash :: rest) 1) [slash] = seg.length := by
    simpa [sliceFrom] using stringsIndex_slash_after seg rest hns
  have hpos : ((seg.length : Nat) : Int) > 0 := by
    have : 0 < seg.length := List.length_pos.mpr hne
    omega
  have hseg : sliceRange (c :: seg ++ slash :: rest) 1 (seg.length + 1) = seg := by
    simp [sliceRange]
  have hrest : sliceFrom (c :: seg ++ slash :: rest) (seg.length + 1) = slash :: rest := by
    simp [sliceFrom]
  rw [structItemFuel]
  simp only [hpath, if_false, hlen, hidx, hpos, if_true, Int.toNat_ofNat, hseg, hrest]

theorem structItemFuel_leaf (sprint : Value → Str) (n : Nat) (c : Byte) (s : Str)
    (iface : Value) (tag : Str) (hns : slash ∉ s) (hpath : c :: s ≠ [slash]) :
    structItemFuel sprint (n + 1) (c :: s) iface tag = getValue sprint (c :: s) iface tag := by
  have hidx : stringsIndex (sliceFrom (c :: s) 1) [slash] = -1 := by
    simpa [sliceFrom] using stringsIndex_no_slash s hns
  rw [structItemFuel]
  simp [hpath, hidx]

theorem fieldInterface_of_exported (f : Field) (h : f.2.1 = true) :
    fieldInterface f = .ok f.2.2 := by
  simp [fieldInterface, h]

theorem fieldInterface_of_unexported (f : Field) (h : f.2.1 = false) :
    fieldInterface f = .error .panic := by
  simp [fieldInterface, h]

theorem fieldInterface_ne_fuel (f : Field) : fieldInterface f ≠ .error .fuel := by
  unfold fieldInterface
  split_ifs <;> simp

theorem getValue_of_fields (sprint : Value → Str) (name : Str) (iface : Value) (tag : Str)
    (f : Field) (rest : List Field) (hr : reflectValue iface = some (.struct (f :: rest)))
    (hexp : f.2.1 = true) :
    getValue sprint name iface tag =
      match f.2.2 with
      | .slice elems => .ok (stringsJoin (elems.map sprint) [newline])
      | ifs => .ok (sprint ifs) := by
  simp only [getValue, hr, structFields, fieldInterface_of_exported f hexp]
  cases f.2.2 <;> rfl

theorem getValue_of_unexported (sprint : Value → Str) (name : Str) (iface : Value)
    (tag : Str) (f : Field) (rest : List Field)
    (hr : reflectValue iface = some (.struct (f :: rest))) (hexp : f.2.1 = false) :
    getValue sprint name iface tag = .error .panic := by
  simp only [getValue, hr, structFields, fieldInterface_of_unexported f hexp]

theorem structFields_cases (x : Option Value) :
    structFields x = .error .panic ∨ ∃ fields, structFields x = .ok fields := by
  cases x with
  | none => exact Or.inl rfl
  | some v =>
    cases v with
    | struct fields => exact Or.inr ⟨fields, rfl⟩
    | basic t => exact Or.inl rfl
    | slice es => exact Or.inl rfl
    | ptr t => exact Or.inl rfl

theorem getNames_ne_fuel (iface : Value) (tag : Str) : getNames iface tag ≠ .error .fuel := by
  unfold getNames
  rcases structFields_cases (reflectValue iface) with h | ⟨fields, h⟩
  · simp [h]
  · simp only [h]
    split_ifs <;> simp

theorem getValue_ne_fuel (sprint : Value → Str) (name : Str) (iface : Value) (tag : Str) :
    getValue sprint name iface tag ≠ .error .fuel := by
  unfold getValue
  rcases structFields_cases (reflectValue iface) with h | ⟨fields, h⟩
  · simp [h]
  · simp only [h]
    cases fields with
    | nil => simp
    | cons f rest =>
      simp only
      cases hfi : fieldInterface f with
      | error e =>
        intro hcon
        simp only [Except.error.injEq] at hcon
        exact fieldInterface_ne_fuel f (by rw [hfi, hcon])
      | ok ifs =>
        simp only
        split <;> simp

theorem getStruct_ne_fuel (name : Str) (iface : Value) (tag : Str) :
    getStruct name iface tag ≠ .error .fuel := by
  unfold getStruct
  rcases structFields_cases (reflectValue iface) with h | ⟨fields, h⟩
  · simp [h]
  · simp only [h]
    split
    · exact fieldInterface_ne_fuel _
    · simp

/-- Any two amounts of fuel above the length of the path give the same
result. -/
theorem structItemFuel_enough (sprint : Value → Str) (tag : Str) :
    ∀ (n m : Nat) (path : Str) (r : Value), path.length < n → path.length < m →
      structItemFuel sprint n path r tag = structItemFuel sprint m path r tag := by
  intro n
  induction n with
  | zero => intro m path r h; omega
  | succ n ih =>
    intro m path r hn hm
    cases m with
    | zero => omega
    | succ m =>
      cases path with
      | nil => rw [structItemFuel_nil, structItemFuel_nil]
      | cons c s =>
        by_cases hs : slash ∈ s
        · obtain ⟨seg, rest, hsplit, hno⟩ := split_at_first_slash s hs
          subst hsplit
          by_cases hseg : seg = []
          · subst hseg
            simp only [List.nil_append]
            rw [structItemFuel_empty_segment, structItemFuel_empty_segment]
          · have e : c :: (seg ++ slash :: rest) = c :: seg ++ slash :: rest := rfl
            rw [e, structItemFuel_step sprint n c seg rest r tag hseg hno,
              structItemFuel_step sprint m c seg rest r tag hseg hno]
            cases getStruct seg r tag with
            | error err => rfl
            | ok v =>
              simp only [List.length_cons, List.length_append] at hn hm
              exact ih m (slash :: rest) v (by simp only [List.length_cons]; omega)
                (by simp only [List.length_cons]; omega)
        · by_cases hp : c :: s = [slash]
          · rw [hp, structItemFuel_root, structItemFuel_root]
          · rw [structItemFuel_leaf sprint n c s r tag hs hp,
              structItemFuel_leaf sprint m c s r tag hs hp]

/-- With fuel above the length of the path the recursion bound is not
reached. -/
theorem structItemFuel_ne_fuel (sprint : Value → Str) (tag : Str) :
    ∀ (n : Nat) (path : Str) (r : Value), path.length < n →
      structItemFuel sprint n path r tag ≠ .error .fuel := by
  intro n
  induction n with
  | zero => intro path r h; omega
  | succ n ih =>
    intro path r hn
    cases path with
    | nil => rw [structItemFuel_nil]; simp
    | cons c s =>
      by_cases hs : slash ∈ s
      · obtain ⟨seg, rest, hsplit, hno⟩ := split_at_first_slash s hs
        subst hsplit
        by_cases hseg : seg = []
        · subst hseg
          simp only [List.nil_append]
          rw [structItemFuel_empty_segment]
          exact getNames_ne_fuel r tag
        · have e : c :: (seg ++ slash :: rest) = c :: seg ++ slash :: rest := rfl
          rw [e, structItemFuel_step sprint n c seg rest r tag hseg hno]
          cases hg : getStruct seg r tag with
          | error err =>
            intro h
            simp only [Except.error.injEq] at h
            exact getStruct_ne_fuel seg r tag (by rw [hg, h])
          | ok v =>
            simp only [List.length_cons, List.length_append] at hn
            exact ih (slash :: rest) v (by simp only [List.length_cons]; omega)
      · by_cases hp : c :: s = [slash]
        · rw [hp, structItemFuel_root]
          exact getNames_ne_fuel r tag
        · rw [structItemFuel_leaf sprint n c s r tag hs hp]
          exact getValue_ne_fuel sprint (c :: s) r tag

theorem mem_of_getLast? (s : Str) (c : Byte) (h : s.getLast? = some c) : c ∈ s := by
  obtain ⟨ys, hys⟩ := List.getLast?_eq_some_iff.mp h
  simp [hys]

/-- A path that ends with `/` splits into its first byte, segments each
followed by `/`, and a remainder that is empty or begins with `/`; with fuel
above its length, it resolves to the listing of the record reached through
the segments. -/
theorem trailing_slash_fuel (sprint : Value → Str) (tag : Str) :
    ∀ (n : Nat) (path : Str), path.length < n → path.getLast? = some slash →
      ∃ (c : Byte) (segs : List Str) (rest : Str),
        path = c :: (segs.map (fun s => s ++ [slash])).flatten ++ rest ∧
        (∀ s ∈ segs, s ≠ [] ∧ slash ∉ s) ∧
        (rest = [] ∨ ∃ t, rest = slash :: t) ∧
        ∀ r : Value, structItemFuel sprint n path r tag =
          match descend tag segs r with
          | .error e => .error e
          | .ok v => getNames v tag := by
  intro n
  induction n with
  | zero => intro path h; omega
  | succ n ih =>
    intro path hn hend
    cases path with
    | nil => simp at hend
    | cons c s =>
      by_cases hs : s = []
      · subst hs
        have hc : c = slash := by simpa using hend
        subst hc
        refine ⟨slash, [], [], by simp, by simp, Or.inl rfl, ?_⟩
        intro r
        rw [structItemFuel_root]
        rfl
      · have hends : s.getLast? = some slash := by
          rw [← hend]
          exact (List.getLast?_append_of_ne_nil [c] hs).symm
        obtain ⟨seg, rest0, hsplit, hno⟩ := split_at_first_slash s (mem_of_getLast? s slash hends)
        subst hsplit
        by_cases hseg : seg = []
        · subst hseg
          refine ⟨c, [], slash :: rest0, by simp, by simp, Or.inr ⟨rest0, rfl⟩, ?_⟩
          intro r
          simp only [List.nil_append]
          rw [structItemFuel_empty_segment]
          rfl
        · have hend2 : (slash :: rest0).getLast? = some slash := by
            rw [← hends]
            exact (List.getLast?_append_of_ne_nil seg (List.cons_ne_nil _ _)).symm
          have hlen2 : (slash :: rest0).length < n := by
            simp only [List.length_cons, List.length_append] at hn ⊢
            omega
          obtain ⟨c2, segs, rest, hpath, hsegs, hrest, hres⟩ := ih (slash :: rest0) hlen2 hend2
          have hc2 : rest0 = (segs.map (fun s => s ++ [slash])).flatten ++ rest := by
            have := List.tail_eq_of_cons_eq hpath
            simpa using this
          refine ⟨c, seg :: segs, rest, ?_, ?_, hrest, ?_⟩
          · simp [hc2]
          · intro x hx
            rcases List.mem_cons.mp hx with h1 | h1
            · subst h1; exact ⟨hseg, hno⟩
            · exact hsegs x h1
          · intro r
            have e : c :: (seg ++ slash :: rest0) = c :: seg ++ slash :: rest0 := rfl
            rw [e, structItemFuel_step sprint n c seg rest0 r tag hseg hno]
            cases hg : getStruct seg r tag with
            | error err => simp [descend, hg]
            | ok v =>
              simp only [descend, hg]
              exact hres v

theorem getNames_ok_listing (iface : Value) (tag : Str) (out : Str)
    (h : getNames iface tag = .ok out) :
    ∃ fields, reflectValue iface = some (.struct fields) ∧
      out = stringsJoin (annotations fields tag) [newline] := by
  cases hr : reflectValue iface with
  | none => simp [getNames, hr, structFields] at h
  | some v =>
    cases v with
    | struct fields =>
      rw [getNames_of_fields iface fields tag hr] at h
      by_cases hA : annotations fields tag = []
      · simp [hA] at h
      · simp only [hA, if_false, Except.ok.injEq] at h
        exact ⟨fields, rfl, h.symm⟩
    | basic t => simp [getNames, hr, structFields] at h
    | slice es => simp [getNames, hr, structFields] at h
    | ptr t => simp [getNames, hr, structFields] at h

/-! ## The adapter and the resolver, continued -/

/-- C11, counterexample: `dns/` does not begin with `/`; `Open` resolves it as
it is, skipping its first byte, looks up a field `ns` and fails, where `Open`
of `/dns/` gives the listing `nameservers`. -/
theorem Open_not_normalized_example :
    stringsHasPrefix (ascii "dns/") [slash] = false ∧
    mount.Open sprintText (ascii "dns/") = .error .iface ∧
    mount.Open sprintText (ascii "/dns/") =
      .ok { name := ascii "/dns/", offset := 0, data := ascii "nameservers" } := by
  decide

/-- C11, amended: the normalization is done by `ServeHTTP`, not by `Open`. For
a request path `p` that does not begin with `/`, `ServeHTTP` rewrites the path
to `/` followed by `p` and serves the outcome of `Open` of that path, the same
content or the same failure; a path that begins with `/` is opened as it is.
`Open` itself passes its path unchanged to the resolver. -/
theorem ServeHTTP_normalizes (sprint : Value → Str) (fs : Fs) (p : Str)
    (h : stringsHasPrefix p [slash] = false) :
    fs.ServeHTTP sprint p = (slash :: p, fs.Open sprint (slash :: p)) ∧
    (∀ q, stringsHasPrefix q [slash] = true → fs.ServeHTTP sprint q = (q, fs.Open sprint q)) ∧
    (∀ q, fs.Open sprint q = newFile sprint q fs.iface fs.tag) := by
  refine ⟨?_, ?_, fun _ => rfl⟩
  · simp [Fs.ServeHTTP, h]
  · intro q hq
    simp [Fs.ServeHTTP, hq]

/-- C11, witness: the request path `dns/` is served as `/dns/`. -/
theorem ServeHTTP_normalizes_witness :
    stringsHasPrefix (ascii "dns/") [slash] = false ∧
    mount.ServeHTTP sprintText (ascii "dns/") =
      (slash :: ascii "dns/", mount.Open sprintText (slash :: ascii "dns/")) :=
  ⟨by decide, (ServeHTTP_normalizes sprintText mount (ascii "dns/") (by decide)).1⟩

/-- C13, counterexample: the only field of `unexportedLeaf` is annotated
`name` and is unexported; `getStruct` finds it and panics in `Interface()`
instead of returning its value. -/
theorem getStruct_unexported_example :
    (tagged "name").Get jsonKey = ascii "name" ∧
    getStruct (ascii "name") unexportedLeaf jsonKey = .error .panic :=
  ⟨by decide, rfl⟩

/-- C13, amended: on a record (a struct or a pointer to one) `getStruct` looks
at the first field, in declaration order, whose annotation equals `name`: it
returns that field's value, whatever the value is, when the field is exported,
and panics when it is unexported. It fails with the error "failed to find
iface" exactly when no field's annotation equals `name`. -/
theorem getStruct_first_match (name : Str) (r : Value) (tag : Str) (fields : List Field)
    (hr : reflectValue r = some (.struct fields)) :
    (∀ (front : List Field) (f : Field) (back : List Field), fields = front ++ f :: back →
      (∀ g ∈ front, g.1.Get tag ≠ name) → f.1.Get tag = name →
      (f.2.1 = true → getStruct name r tag = .ok f.2.2) ∧
      (f.2.1 = false → getStruct name r tag = .error .panic)) ∧
    (getStruct name r tag = .error .iface ↔ ∀ f ∈ fields, f.1.Get tag ≠ name) ∧
    (∀ e, getStruct name r tag = .error e → e = .iface ∨ e = .panic) := by
  refine ⟨?_, ?_, ?_⟩
  · intro front f back hsplit hfront hf
    have hfind : fields.find? (fun f => f.1.Get tag == name) = some f := by
      have hnone : front.find? (fun f => f.1.Get tag == name) = none := by
        rw [List.find?_eq_none]
        intro g hg
        simpa using hfront g hg
      rw [hsplit, List.find?_append, hnone]
      simp [hf]
    rw [getStruct_of_find name r tag fields f hr hfind]
    exact ⟨fieldInterface_of_exported f, fieldInterface_of_unexported f⟩
  · constructor
    · intro herr f hf hname
      cases hfind : fields.find? (fun f => f.1.Get tag == name) with
      | none =>
        rw [List.find?_eq_none] at hfind
        exact hfind f hf (by simpa using hname)
      | some g =>
        rw [getStruct_of_find name r tag fields g hr hfind] at herr
        have := (fieldInterface_error g .iface herr).2
        simp at this
    · exact getStruct_of_no_match name r tag fields hr
  · intro e herr
    cases hfind : fields.find? (fun f => f.1.Get tag == name) with
    | none =>
      simp [getStruct, hr, structFields, hfind] at herr
      exact Or.inl herr.symm
    | some g =>
      rw [getStruct_of_find name r tag fields g hr hfind] at herr
      exact Or.inr (fieldInterface_error g e herr).2

/-- C13, witness: in `twoLeaves` the name `b` selects the second field. -/
theorem getStruct_first_match_witness :
    getStruct (ascii "b") twoLeaves jsonKey = .ok (.basic (ascii "2")) :=
  ((getStruct_first_match (ascii "b") twoLeaves jsonKey
    [(tagged "a", true, .basic (ascii "1")), (tagged "b", true, .basic (ascii "2"))] rfl).1
    [(tagged "a", true, .basic (ascii "1"))] (tagged "b", true, .basic (ascii "2")) [] rfl
    (by decide) (by decide)).1 rfl

/-- C15: `Open` succeeds exactly when the resolver does. On success the handle
has the path given as its name, the resolver's bytes as its content and
offset 0; on failure the resolver's error comes back and no handle. -/
theorem Open_wraps_resolver (sprint : Value → Str) (fs : Fs) (path : Str) :
    (∀ data, structItem sprint path fs.iface fs.tag = .ok data →
      fs.Open sprint path = .ok { name := path, offset := 0, data := data }) ∧
    (∀ e, structItem sprint path fs.iface fs.tag = .error e →
      fs.Open sprint path = .error e) ∧
    ((∃ f, fs.Open sprint path = .ok f) ↔
      ∃ data, structItem sprint path fs.iface fs.tag = .ok data) := by
  unfold Fs.Open newFile
  cases structItem sprint path fs.iface fs.tag with
  | error e => simp
  | ok data => simp

/-- C16, counterexample: the first declared field of `unexportedFirst` is
unexported; `getValue`, and so the path `/name`, panics in `Interface()`
instead of rendering a field, although the record has fields. -/
theorem getValue_unexported_first_example :
    getValue sprintText (ascii "/name") unexportedFirst jsonKey = .error .panic ∧
    structItem sprintText (ascii "/name") unexportedFirst jsonKey = .error .panic := by
  decide

/-- C16, amended: on a record whose first declared field is exported
`getValue` renders that field whatever name is asked for: a slice as the
default string forms of its elements joined by `\n`, any other value as its
default string form. On a record it returns an error, "cant find name in
interface", only when there is no field at all, and it panics exactly when
the first declared field is unexported. -/
theorem getValue_renders_first_field (sprint : Value → Str) (name : Str) (r : Value)
    (tag : Str) (f : Field) (rest : List Field)
    (hr : reflectValue r = some (.struct (f :: rest))) (hexp : f.2.1 = true) :
    (∀ elems, f.2.2 = .slice elems →
      getValue sprint name r tag = .ok (stringsJoin (elems.map sprint) [newline])) ∧
    ((∀ elems, f.2.2 ≠ .slice elems) → getValue sprint name r tag = .ok (sprint f.2.2)) ∧
    (∀ name2 tag2, getValue sprint name2 r tag2 = getValue sprint name r tag) ∧
    (∀ (r2 : Value) (fields : List Field) (e : Fault),
      reflectValue r2 = some (.struct fields) →
      (getValue sprint name r2 tag = .error e ↔
        (fields = [] ∧ e = .value) ∨
        (∃ g gs, fields = g :: gs ∧ g.2.1 = false ∧ e = .panic))) := by
  refine ⟨?_, ?_, ?_, ?_⟩
  · intro elems he
    rw [getValue_of_fields sprint name r tag f rest hr hexp, he]
  · intro hno
    rw [getValue_of_fields sprint name r tag f rest hr hexp]
    cases hv : f.2.2 with
    | slice elems => exact absurd hv (hno elems)
    | basic t => rfl
    | struct fs => rfl
    | ptr t => rfl
  · intro name2 tag2
    rw [getValue_of_fields sprint name2 r tag2 f rest hr hexp,
      getValue_of_fields sprint name r tag f rest hr hexp]
  · intro r2 fields e hr2
    cases fields with
    | nil =>
      simp only [getValue, hr2, structFields, Except.error.injEq, true_and]
      constructor
      · intro h
        exact Or.inl h.symm
      · rintro (h | ⟨g, gs, hg, _⟩)
        · exact h.symm
        · cases hg
    | cons g gs =>
      by_cases hg : g.2.1 = true
      · rw [getValue_of_fields sprint name r2 tag g gs hr2 hg]
        constructor
        · intro h
          cases hv : g.2.2 <;> simp [hv] at h
        · rintro (⟨h, _⟩ | ⟨g2, gs2, hcons, hfalse, _⟩)
          · cases h
          · have : g2 = g := by
              have := (List.cons.inj hcons).1
              exact this.symm
            subst this
            rw [hfalse] at hg
            cases hg
      · have hg2 : g.2.1 = false := by simpa using hg
        rw [getValue_of_unexported sprint name r2 tag g gs hr2 hg2]
        constructor
        · intro h
          simp only [Except.error.injEq] at h
          exact Or.inr ⟨g, gs, rfl, hg2, h.symm⟩
        · rintro (⟨h, _⟩ | ⟨_, _, _, _, he⟩)
          · cases h
          · rw [he]

/-- C16, witness: on `twoLeaves` the name `/b` gives the first field's `1`. -/
theorem getValue_renders_first_field_witness :
    getValue sprintText (ascii "/b") twoLeaves jsonKey = .ok (sprintText (.basic (ascii "1"))) :=
  (getValue_renders_first_field sprintText (ascii "/b") twoLeaves jsonKey
    (tagged "a", true, .basic (ascii "1")) [(tagged "b", true, .basic (ascii "2"))] rfl rfl).2.1
    (by intro elems h; cases h)

/-- C14: a path that ends with `/` is resolved as a directory listing and
never by `getValue`. The path is its first byte, then segments (non-empty,
without `/`) each followed by `/`, then a remainder that is empty or begins
with `/`; the result is the failed lookup of a segment, or `getNames` of the
record reached through the segments. So a success is the listing of that
record: the annotations of its fields joined by `\n`. -/
theorem trailing_slash_lists (sprint : Value → Str) (path : Str) (tag : Str)
    (hend : path.getLast? = some slash) :
    ∃ (c : Byte) (segs : List Str) (rest : Str),
      path = c :: (segs.map (fun s => s ++ [slash])).flatten ++ rest ∧
      (∀ s ∈ segs, s ≠ [] ∧ slash ∉ s) ∧
      (rest = [] ∨ ∃ t, rest = slash :: t) ∧
      ∀ r : Value,
        (structItem sprint path r tag =
          match descend tag segs r with
          | .error e => .error e
          | .ok v => getNames v tag) ∧
        (∀ out, structItem sprint path r tag = .ok out →
          ∃ v fields, descend tag segs r = .ok v ∧
            reflectValue v = some (.struct fields) ∧
            out = stringsJoin (annotations fields tag) [newline]) := by
  obtain ⟨c, segs, rest, hpath, hsegs, hrest, hres⟩ :=
    trailing_slash_fuel sprint tag (path.length + 1) path (Nat.lt_succ_self _) hend
  refine ⟨c, segs, rest, hpath, hsegs, hrest, ?_⟩
  intro r
  have hr : structItem sprint path r tag =
      match descend tag segs r with
      | .error e => .error e
      | .ok v => getNames v tag := hres r
  refine ⟨hr, ?_⟩
  intro out hout
  rw [hr] at hout
  cases hd : descend tag segs r with
  | error e => simp [hd] at hout
  | ok v =>
    simp only [hd] at hout
    obtain ⟨fields, hv, ho⟩ := getNames_ok_listing v tag out hout
    exact ⟨v, fields, rfl, hv, ho⟩

/-- C14, witness: `/dns/` ends with `/`. -/
theorem trailing_slash_lists_witness :
    ∃ (c : Byte) (segs : List Str) (rest : Str),
      ascii "/dns/" = c :: (segs.map (fun s => s ++ [slash])).flatten ++ rest ∧
      (∀ s ∈ segs, s ≠ [] ∧ slash ∉ s) ∧
      (rest = [] ∨ ∃ t, rest = slash :: t) ∧
      ∀ r : Value,
        (structItem sprintText (ascii "/dns/") r jsonKey =
          match descend jsonKey segs r with
          | .error e => .error e
          | .ok v => getNames v jsonKey) ∧
        (∀ out, structItem sprintText (ascii "/dns/") r jsonKey = .ok out →
          ∃ v fields, descend jsonKey segs r = .ok v ∧
            reflectValue v = some (.struct fields) ∧
            out = stringsJoin (annotations fields jsonKey) [newline]) :=
  trailing_slash_lists sprintText (ascii "/dns/") jsonKey (by decide)

/-- C17: a path that begins with `//` is a listing request on the current
record: it resolves to what `/` resolves to against the same record, whatever
follows the two slashes. So it is for the remainder `//rest` reached after a
segment: `/seg//rest` lists the record `seg` leads to. -/
theorem empty_segment_lists_current (sprint : Value → Str) (r : Value) (rest tag : Str) :
    structItem sprint (slash :: slash :: rest) r tag = structItem sprint [slash] r tag ∧
    structItem sprint (slash :: slash :: rest) r tag = getNames r tag ∧
    (∀ (seg : Str) (v : Value), seg ≠ [] → slash ∉ seg → getStruct seg r tag = .ok v →
      structItem sprint (slash :: seg ++ slash :: slash :: rest) r tag =
        structItem sprint [slash] v tag) := by
  have h1 : structItem sprint (slash :: slash :: rest) r tag = getNames r tag := by
    unfold structItem
    exact structItemFuel_empty_segment sprint _ slash rest r tag
  refine ⟨by rw [h1, structItem_root], h1, ?_⟩
  intro seg v hne hns hget
  rw [structItem_root]
  unfold structItem
  rw [structItemFuel_step sprint _ slash seg (slash :: rest) r tag hne hns, hget]
  simp only
  rw [structItemFuel_enough sprint tag _ ((slash :: slash :: rest).length + 1)
    (slash :: slash :: rest) v (by simp only [List.length_cons, List.length_append]; omega)
    (Nat.lt_succ_self _)]
  exact structItemFuel_empty_segment sprint _ slash rest v tag

/-- C18: the resolver terminates: with the fuel `structItem` gives it the
recursion bound is never reached, and more fuel changes nothing. On a
non-empty path every slice expression is in range: `path[1:]`, and, when the
index found is positive, `path[1:idx+1]` and `path[idx+1:]`; the path of the
recursive call, `path[idx+1:]`, is strictly shorter and begins with `/`. The
empty path is the one on which `path[1:]` is out of range, and the resolver
panics on it. -/
theorem structItem_terminates_in_bounds (sprint : Value → Str) (path : Str) (r : Value)
    (tag : Str) (hne : path ≠ []) :
    structItem sprint path r tag ≠ .error .fuel ∧
    (∀ n, path.length < n → structItemFuel sprint n path r tag = structItem sprint path r tag) ∧
    sliceChecked path 1 path.length = some (sliceFrom path 1) ∧
    (∀ idx : Int, idx = stringsIndex (sliceFrom path 1) [slash] → 0 < idx →
      sliceChecked path 1 (idx + 1) = some (sliceRange path 1 (idx.toNat + 1)) ∧
      sliceChecked path (idx + 1) path.length = some (sliceFrom path (idx.toNat + 1)) ∧
      (sliceFrom path (idx.toNat + 1)).length < path.length ∧
      (sliceFrom path (idx.toNat + 1)).head? = some slash) ∧
    sliceChecked [] 1 (([] : Str).length) = none ∧
    structItem sprint [] r tag = .error .panic := by
  refine ⟨structItemFuel_ne_fuel sprint tag _ path r (Nat.lt_succ_self _), ?_, ?_, ?_,
    by decide, rfl⟩
  · intro n hn
    exact structItemFuel_enough sprint tag n _ path r hn (Nat.lt_succ_self _)
  · cases path with
    | nil => exact absurd rfl hne
    | cons c s =>
      have h : (0 : Int) ≤ 1 ∧ (1 : Int) ≤ ((c :: s).length : Int) ∧
          (((c :: s).length : Nat) : Int) ≤ ((c :: s).length : Int) := by
        simp only [List.length_cons]; omega
      simp [sliceChecked, sliceFrom]
  · intro idx hidx hpos
    cases path with
    | nil => exact absurd rfl hne
    | cons c s =>
      have hs : slash ∈ s := by
        by_contra hno
        have := stringsIndex_no_slash s hno
        simp only [sliceFrom, List.drop_succ_cons, List.drop_zero] at hidx
        omega
      obtain ⟨seg, rest, hsplit, hno⟩ := split_at_first_slash s hs
      subst hsplit
      have hval : idx = seg.length := by
        rw [hidx]
        simpa [sliceFrom] using stringsIndex_slash_after seg rest hno
      subst hval
      have hlen : (c :: (seg ++ slash :: rest)).length = seg.length + rest.length + 2 := by
        simp only [List.length_cons, List.length_append]; omega
      have hb1 : (0 : Int) ≤ 1 ∧ (1 : Int) ≤ (seg.length : Int) + 1 ∧
          (seg.length : Int) + 1 ≤ ((c :: (seg ++ slash :: rest)).length : Int) := by
        refine ⟨by omega, by omega, ?_⟩
        rw [hlen]; push_cast; omega
      have hb2 : (0 : Int) ≤ (seg.length : Int) + 1 ∧
          (seg.length : Int) + 1 ≤ ((c :: (seg ++ slash :: rest)).length : Int) ∧
          (((c :: (seg ++ slash :: rest)).length : Nat) : Int)
            ≤ ((c :: (seg ++ slash :: rest)).length : Int) := by
        refine ⟨by omega, ?_, le_refl _⟩
        rw [hlen]; push_cast; omega
      have ht : ((seg.length : Int) + 1).toNat = seg.length + 1 := by omega
      refine ⟨?_, ?_, ?_, ?_⟩
      · simp only [sliceChecked, hb1, and_self, if_true, sliceRange, ht, Int.toNat_ofNat]
        rfl
      · simp only [sliceChecked, hb2, and_self, if_true, sliceFrom, ht, Int.toNat_ofNat]
        simp
      · simp only [sliceFrom, ht, Int.toNat_ofNat, List.drop_succ_cons, List.drop_left,
          List.length_cons, List.length_append]
        omega
      · simp [sliceFrom]

/-- C18, witness: the path `/dns/nameservers` against `droplet`. -/
theorem structItem_terminates_in_bounds_witness :
    structItem sprintText (ascii "/dns/nameservers") droplet jsonKey ≠ .error .fuel :=
  (structItem_terminates_in_bounds sprintText (ascii "/dns/nameservers") droplet jsonKey
    (by decide)).1

/-! ## The handle, continued -/

theorem stringsHasSuffix_slash_iff (name : Str) :
    stringsHasSuffix name [slash] = true ↔ name.getLast? = some slash := by
  rcases List.eq_nil_or_concat name with h | ⟨front, c, h⟩
  · subst h
    simp [stringsHasSuffix]
  · subst h
    simp [stringsHasSuffix, List.getLast?_concat]

theorem Read_preserves (f : File) (b : List Byte) (r : ReadResult) (h : f.Read b = some r) :
    r.file.name = f.name ∧ r.file.data = f.data := by
  unfold File.Read at h
  split_ifs at h with h1 h2 h3
  · simp only [Option.some.injEq] at h
    subst h
    exact ⟨rfl, rfl⟩
  · simp only [Option.some.injEq] at h
    subst h
    exact ⟨rfl, rfl⟩
  · simp only [Option.some.injEq] at h
    subst h
    have hnil : f.data = [] := by
      cases hd : f.data with
      | nil => rfl
      | cons x xs => simp [hd] at h2
    refine ⟨rfl, ?_⟩
    simp [File.readTail, goCopy, hnil]

theorem readUntilEOF_from :
    ∀ (fuel : Nat) (f : File) (b : List Byte), 0 ≤ f.offset → f.offset ≤ f.data.length →
      1 ≤ b.length → f.data.length - f.offset.toNat + 1 ≤ fuel →
      readUntilEOF fuel f b = .ok (f.data.drop f.offset.toNat) := by
  intro fuel
  induction fuel with
  | zero => intro f b h0 h1 hk hf; omega
  | succ fuel ih =>
    intro f b h0 h1 hk hf
    by_cases hend : f.offset = f.data.length
    · have hread := Read_at_or_past_end f b (by omega)
      have hdrop : f.data.drop f.offset.toNat = [] := by
        apply List.drop_eq_nil_of_le
        omega
      simp [readUntilEOF, hread, hdrop]
    · have hlt : f.offset < f.data.length := by omega
      have hread := Read_inside f b h0 hlt
      have hn : 1 ≤ min b.length (f.data.length - f.offset.toNat) := by omega
      have hrec := ih
        { f with offset := f.offset + (min b.length (f.data.length - f.offset.toNat) : Nat) }
        ((f.data.drop f.offset.toNat).take (min b.length (f.data.length - f.offset.toNat))
          ++ b.drop (min b.length (f.data.length - f.offset.toNat)))
        (by simp only; omega) (by simp only; omega)
        (by simp only [List.length_append, List.length_take, List.length_drop]; omega)
        (by simp only; omega)
      have htoNat : (f.offset + (min b.length (f.data.length - f.offset.toNat) : Nat)).toNat
          = f.offset.toNat + min b.length (f.data.length - f.offset.toNat) := by omega
      simp only [htoNat] at hrec
      have htake : ((f.data.drop f.offset.toNat).take
            (min b.length (f.data.length - f.offset.toNat))
          ++ b.drop (min b.length (f.data.length - f.offset.toNat))).take
            (min b.length (f.data.length - f.offset.toNat))
          = (f.data.drop f.offset.toNat).take
            (min b.length (f.data.length - f.offset.toNat)) := by
        apply List.take_left'
        simp only [List.length_take, List.length_drop]
        omega
      rw [readUntilEOF, hread]
      simp only [hrec, htake, reduceCtorEq, if_false]
      rw [← List.drop_drop, List.take_append_drop]

/-- C12: `Stat` succeeds and reports the handle's name and the content length
as size, whatever the offset: a `Seek` or a `Read` changes nothing in it. The
mode is `0755 | os.ModeDir`, which has the directory bit, exactly when the
name ends with `/`, and `0644`, which has not, otherwise; `IsDir` reports
false in both cases. -/
theorem Stat_reports (f : File) :
    f.Stat.2 = none ∧ f.Stat.1.Name = f.name ∧ f.Stat.1.Size = f.data.length ∧
    (∀ off : Int, ({ f with offset := off } : File).Stat = f.Stat) ∧
    (∀ d whence : Int, (f.Seek d whence).1.Stat = f.Stat) ∧
    (∀ (b : List Byte) (r : ReadResult), f.Read b = some r → r.file.Stat = f.Stat) ∧
    (f.name.getLast? = some slash →
      f.Stat.1.Mode = 0o755 ||| ModeDir ∧ f.Stat.1.Mode &&& ModeDir = ModeDir) ∧
    (f.name.getLast? ≠ some slash →
      f.Stat.1.Mode = 0o644 ∧ f.Stat.1.Mode &&& ModeDir = 0) ∧
    f.Stat.1.IsDir = false := by
  refine ⟨rfl, rfl, rfl, fun _ => rfl, ?_, ?_, ?_, ?_, rfl⟩
  · intro d whence
    unfold File.Seek
    simp only
    split_ifs <;> rfl
  · intro b r h
    obtain ⟨hn, hd⟩ := Read_preserves f b r h
    simp [File.Stat, hn, hd]
  · intro h
    have hs : stringsHasSuffix f.name [slash] = true := (stringsHasSuffix_slash_iff f.name).mpr h
    have hm : f.Stat.1.Mode = 0o755 ||| ModeDir := by
      simp only [File.Stat, FileInfo.Mode, hs, if_true]
    rw [hm]
    exact ⟨rfl, by decide⟩
  · intro h
    have hs : ¬ (stringsHasSuffix f.name [slash] = true) :=
      fun e => h ((stringsHasSuffix_slash_iff f.name).mp e)
    have hm : f.Stat.1.Mode = 0o644 := by
      simp [File.Stat, FileInfo.Mode, hs]
    rw [hm]
    exact ⟨rfl, by decide⟩

/-- C19: with `0 ≤ offset ≤ len(content)` the slice `content[offset:]` that
`Read` takes is in range, so `Read` returns, and the handle is well-formed
afterwards: `0 ≤ offset ≤ len(content)` again, the offset not smaller than
before, the content and the name as they were. -/
theorem Read_keeps_wellformed (f : File) (b : List Byte)
    (h0 : 0 ≤ f.offset) (h1 : f.offset ≤ f.data.length) :
    sliceChecked f.data f.offset f.data.length = some (sliceFrom f.data f.offset.toNat) ∧
    ∃ r, f.Read b = some r ∧
      0 ≤ r.file.offset ∧ r.file.offset ≤ r.file.data.length ∧
      f.offset ≤ r.file.offset ∧ r.file.data = f.data ∧ r.file.name = f.name := by
  constructor
  · have hb : 0 ≤ f.offset ∧ f.offset ≤ (f.data.length : Int) ∧
        ((f.data.length : Nat) : Int) ≤ f.data.length := ⟨h0, h1, le_refl _⟩
    simp only [sliceChecked, hb, and_self, if_true, sliceFrom, Int.toNat_ofNat]
    rw [List.take_of_length_le]
    simp
  · by_cases hend : f.offset = f.data.length
    · refine ⟨_, Read_at_or_past_end f b (by omega), ?_, ?_, ?_, rfl, rfl⟩ <;> simp only <;> omega
    · have hlt : f.offset < f.data.length := by omega
      refine ⟨_, Read_inside f b h0 hlt, ?_, ?_, ?_, rfl, rfl⟩ <;> simp only <;> omega

/-- C19, witness: the handle `midway` and a two-byte buffer. -/
theorem Read_keeps_wellformed_witness :
    ∃ r, midway.Read [0, 0] = some r ∧
      0 ≤ r.file.offset ∧ r.file.offset ≤ r.file.data.length ∧
      midway.offset ≤ r.file.offset ∧ r.file.data = midway.data ∧ r.file.name = midway.name :=
  (Read_keeps_wellformed midway [0, 0] (by decide) (by decide)).2

/-- C20: from offset 0, with a buffer of at least one byte, reading until a
call reports `io.EOF` comes to an end within `len(content) + 1` calls, and
the chunks read, put together in order, are the content. -/
theorem Read_until_eof_yields_content (f : File) (b : List Byte)
    (h0 : f.offset = 0) (hk : 1 ≤ b.length) :
    ∀ fuel, f.data.length + 1 ≤ fuel → readUntilEOF fuel f b = .ok f.data := by
  intro fuel hfuel
  have h := readUntilEOF_from fuel f b (by omega) (by omega) hk (by omega)
  simpa [h0] using h

/-- C20, witness: a fresh handle on `ABCD` read with a three-byte buffer. -/
theorem Read_until_eof_yields_content_witness :
    readUntilEOF 5 fresh [0, 0, 0] = .ok (ascii "ABCD") :=
  Read_until_eof_yields_content fresh [0, 0, 0] (by decide) (by decide) 5 (by decide)

end Structfs
